import Mathlib

/-!
# Verification of the noodles block-compressed addressing and indexing core

A shallow embedding, in Lean 4, of the parts of the `noodles` repository that
the specification's claims are about:

* `noodles-bgzf`'s `VirtualPosition` (64-bit composite stream address);
* the spec's interval-index construction and region-query engine
  (`reg2bin` / `reg2bins` binning, linear index, chunk pruning and merging);
* `noodles-util`'s format-polymorphic variant `IndexedReader`;
* `noodles-cram`'s `Container` EOF marker and indexed-reader builder;
* `noodles-sam`'s record writer reference-sequence-name validation;
* `noodles-vcf`'s `Genotype` conversion from a list of alleles.

Machine integers (`u64`, `usize`, `u8`) are modelled as `Nat` with explicit
bounds where overflow matters; fallible Rust functions return `Except`.
-/

set_option maxHeartbeats 1000000

namespace Spec2Proof

/-! ## `noodles-bgzf/src/virtual_position.rs` -/

/-- `VirtualPosition` is a newtype over `u64` (modelled as `Nat`;
callers supply values below `2 ^ 64`). -/
structure VirtualPosition where
  val : Nat
deriving DecidableEq, Repr

/-- `VirtualPosition::compressed`: `self.0 >> 16`. -/
def VirtualPosition.compressed (p : VirtualPosition) : Nat :=
  p.val >>> 16

/-- `VirtualPosition::uncompressed`: `self.0 & 0xffff`. -/
def VirtualPosition.uncompressed (p : VirtualPosition) : Nat :=
  p.val &&& 0xffff

/-- `impl From<u64> for VirtualPosition`: wraps the value unchanged. -/
def VirtualPosition.fromU64 (pos : Nat) : VirtualPosition :=
  ⟨pos⟩

/-- `impl From<VirtualPosition> for u64`: unwraps the value unchanged. -/
def u64FromVirtualPosition (p : VirtualPosition) : Nat :=
  p.val

theorem and_ffff_eq_mod (v : Nat) : v &&& 0xffff = v % 2 ^ 16 := by
  have h : (0xffff : Nat) = 2 ^ 16 - 1 := by norm_num
  rw [h, Nat.and_pow_two_sub_one_eq_mod]

/-- C1: for every `u64` value `v`, converting to a `VirtualPosition` and back is
the identity, and `compressed(v) * 2 ^ 16 + uncompressed(v) = v`. -/
theorem virtual_position_roundtrip (v : Nat) (h : v < 2 ^ 64) :
    u64FromVirtualPosition (VirtualPosition.fromU64 v) = v ∧
    (VirtualPosition.fromU64 v).compressed * 2 ^ 16 +
      (VirtualPosition.fromU64 v).uncompressed = v := by
  refine ⟨rfl, ?_⟩
  show v >>> 16 * 2 ^ 16 + (v &&& 0xffff) = v
  rw [Nat.shiftRight_eq_div_pow, and_ffff_eq_mod]
  omega

/-- Witness for C1 at the spec's own example value `88384945211`. -/
theorem virtual_position_roundtrip_witness :
    u64FromVirtualPosition (VirtualPosition.fromU64 88384945211) = 88384945211 ∧
    (VirtualPosition.fromU64 88384945211).compressed * 2 ^ 16 +
      (VirtualPosition.fromU64 88384945211).uncompressed = 88384945211 :=
  virtual_position_roundtrip 88384945211 (by decide)

/-- C2: `compressed` is the upper 48 bits (`v / 2 ^ 16`, always below `2 ^ 48`
for a `u64`), `uncompressed` is the lower 16 bits (`v % 2 ^ 16`, hence at most
`65535`); at `88384945211` the components are `1348647` and `15419`. -/
theorem virtual_position_components (v : Nat) (h : v < 2 ^ 64) :
    (VirtualPosition.fromU64 v).compressed = v / 2 ^ 16 ∧
    (VirtualPosition.fromU64 v).compressed < 2 ^ 48 ∧
    (VirtualPosition.fromU64 v).uncompressed = v % 2 ^ 16 ∧
    (VirtualPosition.fromU64 v).uncompressed ≤ 65535 ∧
    (VirtualPosition.fromU64 88384945211).compressed = 1348647 ∧
    (VirtualPosition.fromU64 88384945211).uncompressed = 15419 := by
  have hc : (VirtualPosition.fromU64 v).compressed = v / 2 ^ 16 :=
    Nat.shiftRight_eq_div_pow v 16
  have hu : (VirtualPosition.fromU64 v).uncompressed = v % 2 ^ 16 :=
    and_ffff_eq_mod v
  refine ⟨hc, ?_, hu, ?_, by decide, by decide⟩
  · rw [hc]
    omega
  · rw [hu]
    omega

/-- Witness for C2 at the spec's example value. -/
theorem virtual_position_components_witness :
    (VirtualPosition.fromU64 88384945211).compressed = 88384945211 / 2 ^ 16 ∧
    (VirtualPosition.fromU64 88384945211).compressed < 2 ^ 48 ∧
    (VirtualPosition.fromU64 88384945211).uncompressed = 88384945211 % 2 ^ 16 ∧
    (VirtualPosition.fromU64 88384945211).uncompressed ≤ 65535 ∧
    (VirtualPosition.fromU64 88384945211).compressed = 1348647 ∧
    (VirtualPosition.fromU64 88384945211).uncompressed = 15419 :=
  virtual_position_components 88384945211 (by decide)

/-- C3: the plain 64-bit integer order on virtual positions is exactly the
lexicographic order on the `(compressed, uncompressed)` pairs. -/
theorem virtual_position_order_lex (v1 v2 : Nat) (h1 : v1 < 2 ^ 64) (h2 : v2 < 2 ^ 64) :
    v1 < v2 ↔
      ((VirtualPosition.fromU64 v1).compressed < (VirtualPosition.fromU64 v2).compressed ∨
        ((VirtualPosition.fromU64 v1).compressed = (VirtualPosition.fromU64 v2).compressed ∧
          (VirtualPosition.fromU64 v1).uncompressed <
            (VirtualPosition.fromU64 v2).uncompressed)) := by
  have e1c : (VirtualPosition.fromU64 v1).compressed = v1 / 2 ^ 16 :=
    Nat.shiftRight_eq_div_pow v1 16
  have e2c : (VirtualPosition.fromU64 v2).compressed = v2 / 2 ^ 16 :=
    Nat.shiftRight_eq_div_pow v2 16
  have e1u : (VirtualPosition.fromU64 v1).uncompressed = v1 % 2 ^ 16 :=
    and_ffff_eq_mod v1
  have e2u : (VirtualPosition.fromU64 v2).uncompressed = v2 % 2 ^ 16 :=
    and_ffff_eq_mod v2
  rw [e1c, e2c, e1u, e2u]
  omega

/-- Witness for C3 at two concrete `u64` values. -/
theorem virtual_position_order_lex_witness :
    88384945211 < 188049630896 ↔
      ((VirtualPosition.fromU64 88384945211).compressed <
          (VirtualPosition.fromU64 188049630896).compressed ∨
        ((VirtualPosition.fromU64 88384945211).compressed =
            (VirtualPosition.fromU64 188049630896).compressed ∧
          (VirtualPosition.fromU64 88384945211).uncompressed <
            (VirtualPosition.fromU64 188049630896).uncompressed)) :=
  virtual_position_order_lex 88384945211 188049630896 (by decide) (by decide)

/-! ## `noodles-cram/src/container.rs` -/

/-- Modelled from the spec: the CRAM container header type is declared in
`container/header.rs`, which is not among the provided sources. The spec says
"A distinguished empty block (zero-length uncompressed payload) is the
end-of-file marker". The header carries the declared uncompressed payload
length; `Header::eof` builds the distinguished marker header (zero declared
length) and `Header::is_eof` recognizes exactly a zero-length declaration. -/
structure ContainerHeader where
  uncompressedLen : Nat
deriving DecidableEq, Repr

/-- `Header::eof()`: the distinguished end-of-file marker header. -/
def ContainerHeader.eof : ContainerHeader :=
  ⟨0⟩

/-- `Header::is_eof()`: recognizes the end-of-file marker header. -/
def ContainerHeader.is_eof (h : ContainerHeader) : Bool :=
  h.uncompressedLen == 0

/-- Modelled from the spec: `Block::eof` lives in `container/block.rs`, not
among the provided sources; it is the distinguished empty block with a
zero-length uncompressed payload. -/
structure CramBlock where
  data : List Nat
deriving DecidableEq, Repr

/-- `Block::eof()`: the distinguished empty block. -/
def CramBlock.eof : CramBlock :=
  ⟨[]⟩

/-- `Container` from `src/noodles-cram/src/container.rs`: a header plus a list
of blocks. -/
structure Container where
  header : ContainerHeader
  blocks : List CramBlock

/-- `Container::new(header, blocks)`. -/
def Container.new (header : ContainerHeader) (blocks : List CramBlock) : Container :=
  ⟨header, blocks⟩

/-- `Container::eof()`: `Self::new(Header::eof(), vec![Block::eof()])`. -/
def Container.eof : Container :=
  Container.new ContainerHeader.eof [CramBlock.eof]

/-- `Container::is_eof()`: `self.header.is_eof()` — decided solely by the
container's header. -/
def Container.is_eof (c : Container) : Bool :=
  c.header.is_eof

/-- C7: the distinguished end-of-file container is recognized as the
end-of-file marker, and `is_eof` is decided solely by the container's
header. -/
theorem container_eof_is_eof :
    Container.eof.is_eof = true ∧ ∀ c : Container, c.is_eof = c.header.is_eof :=
  ⟨rfl, fun _ => rfl⟩

/-! ## `noodles-vcf/src/variant/record_buf/samples/sample/value/genotype.rs` -/

/-- Genotype allele phasing. -/
inductive Phasing where
  | phased
  | unphased
deriving DecidableEq, Repr

/-- A genotype allele: an optional position and a phasing. -/
structure Allele where
  position : Option Nat
  phasing : Phasing
deriving DecidableEq, Repr

/-- `Genotype`: a list of alleles. -/
structure Genotype where
  alleles : List Allele
deriving DecidableEq, Repr

/-- `TryFromAllelesError`. -/
inductive TryFromAllelesError where
  | empty
  | invalidFirstAllelePhasing
deriving DecidableEq, Repr

/-- `impl TryFrom<Vec<Allele>> for Genotype`: errors with `Empty` on an empty
vector, otherwise wraps the alleles unchanged. -/
def Genotype.tryFromAlleles (alleles : List Allele) : Except TryFromAllelesError Genotype :=
  if alleles.isEmpty then .error .empty else .ok ⟨alleles⟩

/-- C9: the conversion from a vector of alleles errors with `Empty` iff the
vector is empty, otherwise succeeds with exactly the given alleles, and it
never returns `InvalidFirstAllelePhasing`. -/
theorem genotype_try_from_alleles (alleles : List Allele) :
    (Genotype.tryFromAlleles alleles = .error .empty ↔ alleles = []) ∧
    (alleles ≠ [] → Genotype.tryFromAlleles alleles = .ok ⟨alleles⟩) ∧
    Genotype.tryFromAlleles alleles ≠ .error .invalidFirstAllelePhasing := by
  unfold Genotype.tryFromAlleles
  rcases alleles with _ | ⟨a, rest⟩ <;> simp

/-- Witness for C9 at a concrete nonempty allele vector. -/
theorem genotype_try_from_alleles_witness :
    Genotype.tryFromAlleles [Allele.mk (some 0) .unphased] =
      .ok ⟨[Allele.mk (some 0) .unphased]⟩ :=
  (genotype_try_from_alleles [Allele.mk (some 0) .unphased]).2.1 (by decide)

/-! ## `noodles-cram/src/indexed_reader/builder.rs` -/

/-- An abstract CRAM index value (`crai::Index`); its contents are irrelevant
to the path-derivation claim. -/
structure CraiIndex where
  id : Nat
deriving DecidableEq, Repr

/-- I/O errors, abstractly: the `InvalidInput` kind is distinguished. -/
inductive IoError where
  | invalidInput
  | other (code : Nat)
deriving DecidableEq, Repr

/-- `push_ext(path, ext)`: pushes a literal `"."` and then the extension onto
the path, keeping everything already there. -/
def push_ext (path ext : List Char) : List Char :=
  path ++ (Char.ofNat 46 :: ext)

/-- `build_index_src(src)`: `push_ext(src, "crai")`. -/
def build_index_src (src : List Char) : List Char :=
  push_ext src "crai".toList

/-- `Builder::build_from_path`'s index resolution: an index previously set on
the builder is used as-is; otherwise the index is read from
`build_index_src(src)`. The filesystem read `crai::read` is abstracted as the
parameter `readCrai`. -/
def builderResolveIndex (index : Option CraiIndex)
    (readCrai : List Char → Except IoError CraiIndex) (src : List Char) :
    Except IoError CraiIndex :=
  match index with
  | some idx => .ok idx
  | none => readCrai (build_index_src src)

/-- C10: with no index set on the builder, the index source is the full source
path with the literal suffix ".crai" appended — the original extension is
kept — and in particular "sample.cram" yields "sample.cram.crai". -/
theorem build_index_src_appends_crai
    (readCrai : List Char → Except IoError CraiIndex) (src : List Char) :
    build_index_src src = src ++ ".crai".toList ∧
    builderResolveIndex none readCrai src = readCrai (src ++ ".crai".toList) ∧
    build_index_src "sample.cram".toList = "sample.cram.crai".toList := by
  refine ⟨?_, ?_, by decide⟩ <;> rfl

/-! ## `noodles-sam/src/io/writer/record.rs` -/

/-- `u8::is_ascii_graphic`: the printable range `0x21 ..= 0x7e`. -/
def isAsciiGraphic (b : Nat) : Bool :=
  33 ≤ b && b ≤ 126

/-- `is_valid_name_char`: ASCII-graphic and not one of the forbidden
punctuation bytes — backslash (92), comma (44), double quote (34),
backtick (96), single quote (39), parentheses (40, 41), square brackets
(91, 93), curly braces (123, 125), angle brackets (60, 62). -/
def is_valid_name_char (b : Nat) : Bool :=
  isAsciiGraphic b &&
    !(b == 92 || b == 44 || b == 34 || b == 96 || b == 39 || b == 40 || b == 41 ||
      b == 91 || b == 93 || b == 123 || b == 125 || b == 60 || b == 62)

/-- `is_valid_name`: nonempty, the first byte is neither `*` (42) nor `=` (61)
and is itself a valid name byte, and every remaining byte is a valid name
byte. -/
def is_valid_name (name : List Nat) : Bool :=
  match name with
  | [] => false
  | b :: rest =>
    if b == 42 || b == 61 || !is_valid_name_char b then false
    else rest.all is_valid_name_char

/-- The SAM header, restricted to what the guard consults: the reference
sequence names (the keys of `reference_sequences()`, in declared order). -/
structure SamHeader where
  referenceSequenceNames : List (List Nat)

/-- `has_valid_reference_sequence_names(header)`. -/
def has_valid_reference_sequence_names (header : SamHeader) : Bool :=
  header.referenceSequenceNames.all is_valid_name

/-- `write_record(writer, header, record)`: the writer is modelled as the byte
buffer written so far; the record-field-writing tail after the guard
(`write_name`, `write_flags`, … from submodules not among the provided
sources) is abstracted as a continuation `rest` receiving the buffer and
returning the outcome together with the final buffer. The guard is taken
verbatim from the source: if the header has an invalid reference sequence
name, an `InvalidInput` error is returned before any byte is written. -/
def write_record (rest : List Nat → Except IoError Unit × List Nat)
    (header : SamHeader) (buf : List Nat) : Except IoError Unit × List Nat :=
  if !has_valid_reference_sequence_names header then
    (.error .invalidInput, buf)
  else
    rest buf

/-- C8: if some reference sequence name in the header is empty, begins with
`*` (42) or `=` (61), or contains a byte that is not a valid name byte (not
ASCII-graphic, or forbidden punctuation), then `write_record` returns an
`InvalidInput` error, and the output buffer is unchanged — for every
record-field-writing tail and every starting buffer. -/
theorem write_record_invalid_reference_names (header : SamHeader)
    (h : ∃ name ∈ header.referenceSequenceNames,
      name = [] ∨ (∃ b rest, name = b :: rest ∧ (b = 42 ∨ b = 61)) ∨
        ∃ b ∈ name, is_valid_name_char b = false) :
    ∀ rest buf, write_record rest header buf = (.error .invalidInput, buf) := by
  obtain ⟨name, hmem, hcase⟩ := h
  have hinvalid : is_valid_name name = false := by
    rcases hcase with hnil | ⟨b, rest, hcons, hb⟩ | ⟨b, hbmem, hbad⟩
    · subst hnil; rfl
    · subst hcons
      have : (b == 42 || b == 61 || !is_valid_name_char b) = true := by
        rcases hb with hb | hb <;> subst hb <;> simp
      simp [is_valid_name, this]
    · rcases name with _ | ⟨x, rest⟩
      · rfl
      · rcases List.mem_cons.mp hbmem with hbx | hbrest
        · subst hbx
          simp [is_valid_name, hbad]
        · by_cases hx : (x == 42 || x == 61 || !is_valid_name_char x) = true
          · simp [is_valid_name, hx]
          · have hall : rest.all is_valid_name_char = false := by
              rw [List.all_eq_false]
              exact ⟨b, hbrest, by simp [hbad]⟩
            simp only [is_valid_name, hx]
            simp [hall, hx]
  have hguard : has_valid_reference_sequence_names header = false := by
    rw [has_valid_reference_sequence_names, List.all_eq_false]
    exact ⟨name, hmem, by simp [hinvalid]⟩
  intro rest buf
  simp [write_record, hguard]

/-- Witness for C8: a header whose only reference sequence name is `"*"`. -/
theorem write_record_invalid_reference_names_witness :
    write_record (fun buf => (.ok (), buf ++ [65])) ⟨[[42]]⟩ [] =
      (.error .invalidInput, []) :=
  write_record_invalid_reference_names ⟨[[42]]⟩
    ⟨[42], by decide, Or.inr (Or.inl ⟨42, [], rfl, Or.inl rfl⟩)⟩
    (fun buf => (.ok (), buf ++ [65])) []

/-! ## `noodles-util/src/variant/io/indexed_reader.rs` -/

/-- The capability set of a format-specific indexed reader: `read_header` and
`query(header, region)`, the latter yielding a lazy sequence of records or
per-record errors, modelled as a list of `Except`. The concrete
`vcf::io::IndexedReader` / `bcf::io::IndexedReader` are not among the provided
sources and are abstracted by this interface. -/
structure FormatReader (Hdr Region Err Rec : Type) where
  readHeader : Except Err Hdr
  query : Hdr → Region → Except Err (List (Except Err Rec))

variable {Hdr Region Err RecV RecB : Type}

/-- `IndexedReader<R>`: a tagged variant with exactly one case per supported
format (`Vcf`, `Bcf`), each wrapping a format-specific reader. -/
inductive IndexedReader (Hdr Region Err RecV RecB : Type) where
  | vcf : FormatReader Hdr Region Err RecV → IndexedReader Hdr Region Err RecV RecB
  | bcf : FormatReader Hdr Region Err RecB → IndexedReader Hdr Region Err RecV RecB

/-- `Box<dyn Record>`: a record of either format, boxed behind the shared
record interface. -/
inductive BoxedRecord (RecV RecB : Type) where
  | vcf : RecV → BoxedRecord RecV RecB
  | bcf : RecB → BoxedRecord RecV RecB

/-- `IndexedReader::read_header`: matches on the variant and delegates to the
wrapped reader. -/
def IndexedReader.read_header :
    IndexedReader Hdr Region Err RecV RecB → Except Err Hdr
  | .vcf reader => reader.readHeader
  | .bcf reader => reader.readHeader

/-- `IndexedReader::query`: matches on the variant, delegates to the wrapped
reader's `query`, and boxes every yielded record, keeping errors and order. -/
def IndexedReader.query :
    IndexedReader Hdr Region Err RecV RecB → Hdr → Region →
      Except Err (List (Except Err (BoxedRecord RecV RecB)))
  | .vcf reader, header, region =>
    (reader.query header region).map
      (fun records => records.map (fun res => res.map .vcf))
  | .bcf reader, header, region =>
    (reader.query header region).map
      (fun records => records.map (fun res => res.map .bcf))

/-- C6: the polymorphic reader is a tagged variant with one case per supported
format; `read_header` returns exactly the wrapped format-specific reader's
result, and `query` yields exactly the wrapped reader's records and errors,
in the same order, each record boxed. -/
theorem indexed_reader_refines (rd : IndexedReader Hdr Region Err RecV RecB)
    (header : Hdr) (region : Region) :
    ((∃ r, rd = .vcf r) ∨ (∃ r, rd = .bcf r)) ∧
    (∀ r, rd = .vcf r →
      rd.read_header = r.readHeader ∧
      rd.query header region =
        (r.query header region).map
          (fun records => records.map (fun res => res.map .vcf))) ∧
    (∀ r, rd = .bcf r →
      rd.read_header = r.readHeader ∧
      rd.query header region =
        (r.query header region).map
          (fun records => records.map (fun res => res.map .bcf))) := by
  rcases rd with r | r
  · refine ⟨Or.inl ⟨r, rfl⟩, ?_, ?_⟩
    · intro s hs
      cases hs
      exact ⟨rfl, rfl⟩
    · intro s hs
      exact IndexedReader.noConfusion hs
  · refine ⟨Or.inr ⟨r, rfl⟩, ?_, ?_⟩
    · intro s hs
      exact IndexedReader.noConfusion hs
    · intro s hs
      cases hs
      exact ⟨rfl, rfl⟩

/-- Witness for C6 at a concrete VCF-variant reader. -/
theorem indexed_reader_refines_witness :
    (IndexedReader.vcf ⟨.ok 0, fun _ _ => .ok [.ok 7]⟩ :
        IndexedReader Nat Nat Nat Nat Nat).read_header = .ok 0 ∧
    (IndexedReader.vcf ⟨.ok 0, fun _ _ => .ok [.ok 7]⟩ :
        IndexedReader Nat Nat Nat Nat Nat).query 0 0 =
      .ok [.ok (BoxedRecord.vcf 7)] := by
  have h :=
    (indexed_reader_refines
      (IndexedReader.vcf ⟨.ok 0, fun _ _ => .ok [.ok 7]⟩ :
        IndexedReader Nat Nat Nat Nat Nat) 0 0).2.1
      ⟨.ok 0, fun _ _ => .ok [.ok 7]⟩ rfl
  exact ⟨h.1, h.2⟩

/-! ## Interval index construction and region query engine (spec §4.3–§4.5)

The binning-index construction (`add_record`), the linear index, and the
region query engine belong to this repository's index crates, which are not
among the provided sources; each definition below marked "Modelled from the
spec" follows the specification's §4.3–§4.5 text. -/

/-- A chunk: a contiguous virtual-position scan range `[vstart, vend)`. -/
structure Chunk where
  vstart : Nat
  vend : Nat
deriving DecidableEq, Repr

/-- A written record as the index sees it: genomic interval `[start, stop)` on
its reference sequence, and the virtual-position span `[vstart, vend)` the
record occupies in the stream. -/
structure RecordEntry where
  start : Nat
  stop : Nat
  vstart : Nat
  vend : Nat
deriving DecidableEq, Repr

/-- The chunk recorded for one record. -/
def toChunk (r : RecordEntry) : Chunk :=
  ⟨r.vstart, r.vend⟩

/-- Modelled from the spec: `reg2bin` — the id of the smallest hierarchical
bin fully containing `[s, e)`, walking from the finest level (tile width
`2 ^ 14`, id offset 4681) upward, the width multiplying by 8 per level. -/
def reg2bin (s e : Nat) : Nat :=
  if s >>> 14 = (e - 1) >>> 14 then 4681 + (s >>> 14)
  else if s >>> 17 = (e - 1) >>> 17 then 585 + (s >>> 17)
  else if s >>> 20 = (e - 1) >>> 20 then 73 + (s >>> 20)
  else if s >>> 23 = (e - 1) >>> 23 then 9 + (s >>> 23)
  else if s >>> 26 = (e - 1) >>> 26 then 1 + (s >>> 26)
  else 0

/-- Modelled from the spec: the bin ids of one level that could contain an
interval overlapping the query `[a, b)` — ids `offset + (a >>> shift)` up to
`offset + ((b - 1) >>> shift)`. -/
def binsAtLevel (offset shift a b : Nat) : List Nat :=
  (List.range ((b - 1) >>> shift + 1 - (a >>> shift))).map
    (fun i => offset + (a >>> shift) + i)

/-- Modelled from the spec: `reg2bins` — every candidate bin id over all
levels for the query `[a, b)`; level 0 is the single whole-chromosome
bin 0. -/
def reg2bins (a b : Nat) : List Nat :=
  0 ::
    (binsAtLevel 1 26 a b ++ binsAtLevel 9 23 a b ++ binsAtLevel 73 20 a b ++
      binsAtLevel 585 17 a b ++ binsAtLevel 4681 14 a b)

/-- One reference sequence's index: the bin-id-to-chunk-list mapping and the
linear index (per-tile minimum virtual position; `none` while unset). -/
structure RefIndex where
  bins : Nat → List Chunk
  linear : Nat → Option Nat

/-- The index before any record is added. -/
def emptyRefIndex : RefIndex :=
  ⟨fun _ => [], fun _ => none⟩

/-- Does `[r.start, r.stop)` overlap the linear-index tile `t`, i.e. the
coordinate range `[t * 2 ^ 14, (t + 1) * 2 ^ 14)`? -/
def overlapsTile (t : Nat) (r : RecordEntry) : Bool :=
  decide (r.start < (t + 1) * 2 ^ 14) && decide (t * 2 ^ 14 < r.stop)

/-- One linear-index update step: set the tile's minimum if unset, else lower
it. -/
def minAcc (acc : Option Nat) (x : Nat) : Option Nat :=
  match acc with
  | none => some x
  | some m => some (min m x)

/-- Modelled from the spec: `add_record` — append the record's chunk to the
bin covering its interval, and for every tile its interval overlaps, lower the
tile's stored minimum virtual position to the record's start virtual
position. -/
def addRecord (idx : RefIndex) (r : RecordEntry) : RefIndex :=
  ⟨fun b =>
      if b = reg2bin r.start r.stop then idx.bins b ++ [toChunk r] else idx.bins b,
    fun t =>
      if overlapsTile t r then minAcc (idx.linear t) r.vstart else idx.linear t⟩

/-- Building one reference's index by feeding the records in write order. -/
def buildIndex (records : List RecordEntry) : RefIndex :=
  records.foldl addRecord emptyRefIndex

/-- Insert a chunk into a list sorted by start virtual position. -/
def insertChunk (c : Chunk) : List Chunk → List Chunk
  | [] => [c]
  | d :: rest =>
    if c.vstart ≤ d.vstart then c :: d :: rest else d :: insertChunk c rest

/-- Sort chunks by start virtual position (insertion sort). -/
def sortChunks : List Chunk → List Chunk
  | [] => []
  | c :: rest => insertChunk c (sortChunks rest)

/-- Merge overlapping or abutting chunks of a start-sorted list into the
accumulator. -/
def mergeInto (acc : Chunk) : List Chunk → List Chunk
  | [] => [acc]
  | c :: rest =>
    if c.vstart ≤ acc.vend then mergeInto ⟨acc.vstart, max acc.vend c.vend⟩ rest
    else acc :: mergeInto c rest

/-- Merge a start-sorted chunk list. -/
def mergeChunks : List Chunk → List Chunk
  | [] => []
  | c :: rest => mergeInto c rest

/-- Modelled from the spec: the §4.4 region query engine — collect the chunks
of every candidate bin, prune with the linear-index floor of the query's
leftmost tile (discarding chunks whose end is at or below the floor), sort by
start virtual position, and merge. -/
def RefIndex.query (ref : RefIndex) (a b : Nat) : List Chunk :=
  let chunks := (reg2bins a b).flatMap ref.bins
  let pruned :=
    match ref.linear (a >>> 14) with
    | none => chunks
    | some m => chunks.filter (fun c => decide (m < c.vend))
  mergeChunks (sortChunks pruned)

/-- The whole index: one `RefIndex` per declared reference sequence, in
header order. -/
structure BinningIndex where
  refs : List RefIndex

/-- Modelled from the spec: querying the index at a reference id. Per §4.4's
edge cases, an id out of range yields the empty chunk list — "a valid
no-reads-here outcome", not an error — so the operation's result type has no
error channel at all. -/
def BinningIndex.query (idx : BinningIndex) (refId a b : Nat) : List Chunk :=
  match idx.refs.get? refId with
  | none => []
  | some ref => ref.query a b

/-- Does the record's own interval `[start, stop)` actually intersect the
query `[a, b)` (nonempty intersection)? -/
def intersects (r : RecordEntry) (a b : Nat) : Bool :=
  decide (max r.start a < min r.stop b)

/-- Modelled from the spec: scanning a chunk list — seek to each chunk's
start and decode records sequentially until its end virtual position, so a
record is produced exactly when its start virtual position lies inside some
chunk. The merged chunk list is start-sorted and disjoint, so the produced
sequence is the file-order sublist of the records a chunk covers. -/
def scanChunks (records : List RecordEntry) (chunks : List Chunk) : List RecordEntry :=
  records.filter
    (fun r => chunks.any (fun c => decide (c.vstart ≤ r.vstart) && decide (r.vstart < c.vend)))

/-- The full §4.5 pipeline on one reference sequence: query the index built
from the records, scan the resulting chunks, and filter by actual
intersection. -/
def queryRecords (records : List RecordEntry) (a b : Nat) : List RecordEntry :=
  (scanChunks records ((buildIndex records).query a b)).filter
    (fun r => intersects r a b)

/-! ### Arithmetic and binning lemmas -/

theorem shiftRight_mono (k : Nat) {x y : Nat} (h : x ≤ y) : x >>> k ≤ y >>> k := by
  simp only [Nat.shiftRight_eq_div_pow]
  exact Nat.div_le_div_right h

theorem tile_le (a : Nat) : (a >>> 14) * 2 ^ 14 ≤ a := by
  rw [Nat.shiftRight_eq_div_pow]
  exact Nat.div_mul_le_self a (2 ^ 14)

theorem lt_tile_succ (a : Nat) : a < (a >>> 14 + 1) * 2 ^ 14 := by
  rw [Nat.shiftRight_eq_div_pow]
  have h := Nat.div_add_mod a (2 ^ 14)
  have h2 : a % 2 ^ 14 < 2 ^ 14 := Nat.mod_lt a (by norm_num)
  omega

theorem mem_binsAtLevel (o k a b s e : Nat) (hae : a < e) (hsb : s < b)
    (heq : s >>> k = (e - 1) >>> k) : o + (s >>> k) ∈ binsAtLevel o k a b := by
  have h1 : a >>> k ≤ s >>> k := heq ▸ shiftRight_mono k (by omega)
  have h2 : s >>> k ≤ (b - 1) >>> k := shiftRight_mono k (by omega)
  refine List.mem_map.mpr ⟨s >>> k - (a >>> k), List.mem_range.mpr (by omega), by omega⟩

theorem reg2bin_mem_reg2bins (s e a b : Nat) (hae : a < e) (hsb : s < b) :
    reg2bin s e ∈ reg2bins a b := by
  have hmem :
      ∀ x : Nat,
        (x ∈ binsAtLevel 1 26 a b ∨ x ∈ binsAtLevel 9 23 a b ∨
          x ∈ binsAtLevel 73 20 a b ∨ x ∈ binsAtLevel 585 17 a b ∨
          x ∈ binsAtLevel 4681 14 a b) → x ∈ reg2bins a b := by
    intro x hx
    unfold reg2bins
    simp only [List.mem_cons, List.mem_append]
    tauto
  unfold reg2bin
  split
  · next h14 => exact hmem _ (Or.inr (Or.inr (Or.inr (Or.inr (mem_binsAtLevel 4681 14 a b s e hae hsb h14)))))
  · split
    · next h17 => exact hmem _ (Or.inr (Or.inr (Or.inr (Or.inl (mem_binsAtLevel 585 17 a b s e hae hsb h17)))))
    · split
      · next h20 => exact hmem _ (Or.inr (Or.inr (Or.inl (mem_binsAtLevel 73 20 a b s e hae hsb h20))))
      · split
        · next h23 => exact hmem _ (Or.inr (Or.inl (mem_binsAtLevel 9 23 a b s e hae hsb h23)))
        · split
          · next h26 => exact hmem _ (Or.inl (mem_binsAtLevel 1 26 a b s e hae hsb h26))
          · exact List.mem_cons_self 0 _

/-! ### Closed forms of the incremental index construction -/

theorem foldl_addRecord_bins (l : List RecordEntry) (init : RefIndex) (b : Nat) :
    (l.foldl addRecord init).bins b =
      init.bins b ++
        (l.filter (fun r => decide (b = reg2bin r.start r.stop))).map toChunk := by
  induction l generalizing init with
  | nil => simp
  | cons r rest ih =>
    rw [List.foldl_cons, ih]
    by_cases hb : b = reg2bin r.start r.stop
    · simp [addRecord, hb]
    · simp [addRecord, hb]

theorem foldl_addRecord_linear (l : List RecordEntry) (init : RefIndex) (t : Nat) :
    (l.foldl addRecord init).linear t =
      ((l.filter (fun r => overlapsTile t r)).map (fun r => r.vstart)).foldl minAcc
        (init.linear t) := by
  induction l generalizing init with
  | nil => simp
  | cons r rest ih =>
    rw [List.foldl_cons, ih]
    by_cases ht : overlapsTile t r
    · simp [addRecord, ht]
    · simp [addRecord, ht]

theorem foldl_minAcc_spec (l : List Nat) (acc : Option Nat) (m : Nat)
    (h : l.foldl minAcc acc = some m) :
    (∀ x ∈ l, m ≤ x) ∧ (acc = some m ∨ m ∈ l) ∧ (∀ m0, acc = some m0 → m ≤ m0) := by
  induction l generalizing acc with
  | nil =>
    simp only [List.foldl_nil] at h
    exact ⟨by simp, Or.inl h, fun m0 hm0 => by simp [h] at hm0; omega⟩
  | cons x rest ih =>
    rw [List.foldl_cons] at h
    obtain ⟨h1, h2, h3⟩ := ih (minAcc acc x) h
    have hx : m ≤ x := by
      rcases acc with _ | m0
      · exact h3 x rfl
      · have := h3 (min m0 x) rfl
        omega
    refine ⟨?_, ?_, ?_⟩
    · intro y hy
      rcases List.mem_cons.mp hy with rfl | hyr
      · exact hx
      · exact h1 y hyr
    · rcases h2 with h2 | h2
      · rcases acc with _ | m0
        · simp only [minAcc] at h2
          exact Or.inr (by simp [Option.some_inj.mp h2])
        · simp only [minAcc] at h2
          have hmin := Option.some_inj.mp h2
          rcases Nat.le_total m0 x with hle | hle
          · exact Or.inl (by rw [Nat.min_eq_left hle] at hmin; rw [hmin])
          · exact Or.inr (by rw [Nat.min_eq_right hle] at hmin; simp [hmin])
      · exact Or.inr (List.mem_cons_of_mem x h2)
    · intro m0 hm0
      subst hm0
      have := h3 (min m0 x) rfl
      omega

/-! ### Sorting and merging preserve chunk coverage -/

/-- Ordering of chunks by start virtual position. -/
def ChunkLE (c d : Chunk) : Prop :=
  c.vstart ≤ d.vstart

/-- `v` lies inside the chunk. -/
def chunkCovers (c : Chunk) (v : Nat) : Prop :=
  c.vstart ≤ v ∧ v < c.vend

/-- Some chunk of the list contains `v`. -/
def covers (l : List Chunk) (v : Nat) : Prop :=
  ∃ c ∈ l, chunkCovers c v

theorem mem_insertChunk (c x : Chunk) (l : List Chunk) :
    x ∈ insertChunk c l ↔ x = c ∨ x ∈ l := by
  induction l with
  | nil => simp [insertChunk]
  | cons d rest ih =>
    unfold insertChunk
    split
    · simp
    · simp only [List.mem_cons, ih]
      tauto

theorem mem_sortChunks (x : Chunk) (l : List Chunk) : x ∈ sortChunks l ↔ x ∈ l := by
  induction l with
  | nil => simp [sortChunks]
  | cons c rest ih => simp [sortChunks, mem_insertChunk, ih]

theorem sorted_insertChunk (c : Chunk) (l : List Chunk) (h : l.Pairwise ChunkLE) :
    (insertChunk c l).Pairwise ChunkLE := by
  induction l with
  | nil => simp [insertChunk]
  | cons d rest ih =>
    obtain ⟨hd, hrest⟩ := List.pairwise_cons.mp h
    unfold insertChunk
    split
    · next hle =>
      refine List.pairwise_cons.mpr ⟨?_, h⟩
      intro x hx
      rcases List.mem_cons.mp hx with rfl | hxr
      · exact hle
      · exact Nat.le_trans hle (hd x hxr)
    · next hgt =>
      refine List.pairwise_cons.mpr ⟨?_, ih hrest⟩
      intro x hx
      rcases (mem_insertChunk c x rest).mp hx with rfl | hxr
      · exact Nat.le_of_lt (Nat.lt_of_not_le hgt)
      · exact hd x hxr

theorem sorted_sortChunks (l : List Chunk) : (sortChunks l).Pairwise ChunkLE := by
  induction l with
  | nil => simp [sortChunks]
  | cons c rest ih => exact sorted_insertChunk c (sortChunks rest) ih

theorem covers_mergeInto (l : List Chunk) (acc : Chunk) (v : Nat)
    (hsort : ∀ c ∈ l, acc.vstart ≤ c.vstart) (hpair : l.Pairwise ChunkLE)
    (h : chunkCovers acc v ∨ covers l v) : covers (mergeInto acc l) v := by
  induction l generalizing acc with
  | nil =>
    rcases h with h | h
    · exact ⟨acc, by simp [mergeInto], h⟩
    · obtain ⟨c, hc, _⟩ := h
      simp at hc
  | cons c rest ih =>
    obtain ⟨hc_rest, hpair_rest⟩ := List.pairwise_cons.mp hpair
    unfold mergeInto
    split
    · next hle =>
      apply ih ⟨acc.vstart, max acc.vend c.vend⟩
      · intro d hd
        exact hsort d (List.mem_cons_of_mem c hd)
      · exact hpair_rest
      · rcases h with h | h
        · exact Or.inl ⟨h.1, Nat.lt_of_lt_of_le h.2 (Nat.le_max_left _ _)⟩
        · obtain ⟨d, hd, hcov⟩ := h
          rcases List.mem_cons.mp hd with rfl | hdr
          · exact Or.inl
              ⟨Nat.le_trans (hsort d (List.mem_cons_self d rest)) hcov.1,
                Nat.lt_of_lt_of_le hcov.2 (Nat.le_max_right _ _)⟩
          · exact Or.inr ⟨d, hdr, hcov⟩
    · next hgt =>
      rcases h with h | h
      · exact ⟨acc, List.mem_cons_self _ _, h⟩
      · obtain ⟨d, hd, hcov⟩ := h
        have : covers (mergeInto c rest) v := by
          apply ih c hc_rest hpair_rest
          rcases List.mem_cons.mp hd with rfl | hdr
          · exact Or.inl hcov
          · exact Or.inr ⟨d, hdr, hcov⟩
        obtain ⟨d2, hd2, hcov2⟩ := this
        exact ⟨d2, List.mem_cons_of_mem acc hd2, hcov2⟩

theorem covers_mergeChunks (l : List Chunk) (v : Nat) (hpair : l.Pairwise ChunkLE)
    (h : covers l v) : covers (mergeChunks l) v := by
  cases l with
  | nil =>
    obtain ⟨c, hc, _⟩ := h
    simp at hc
  | cons c rest =>
    obtain ⟨hc_rest, hpair_rest⟩ := List.pairwise_cons.mp hpair
    apply covers_mergeInto rest c v hc_rest hpair_rest
    obtain ⟨d, hd, hcov⟩ := h
    rcases List.mem_cons.mp hd with rfl | hdr
    · exact Or.inl hcov
    · exact Or.inr ⟨d, hdr, hcov⟩

/-! ### The queried chunks cover every intersecting record -/

theorem record_covered_by_query (records : List RecordEntry) (r : RecordEntry) (a b : Nat)
    (hpair : records.Pairwise (fun r1 r2 => r1.start ≤ r2.start ∧ r1.vstart ≤ r2.vstart))
    (hwf : ∀ s ∈ records, s.vstart < s.vend)
    (hr : r ∈ records) (hint : intersects r a b = true) :
    covers ((buildIndex records).query a b) r.vstart := by
  have hint2 : r.start < b ∧ a < r.stop := by
    have h := of_decide_eq_true hint
    omega
  have hbin : toChunk r ∈ (buildIndex records).bins (reg2bin r.start r.stop) := by
    rw [buildIndex, foldl_addRecord_bins]
    simp only [emptyRefIndex, List.nil_append]
    exact List.mem_map.mpr ⟨r, List.mem_filter.mpr ⟨hr, by simp⟩, rfl⟩
  have hbins : reg2bin r.start r.stop ∈ reg2bins a b :=
    reg2bin_mem_reg2bins r.start r.stop a b hint2.2 hint2.1
  have hcol : toChunk r ∈ (reg2bins a b).flatMap (buildIndex records).bins :=
    List.mem_flatMap.mpr ⟨_, hbins, hbin⟩
  have hfloor : ∀ m, (buildIndex records).linear (a >>> 14) = some m → m ≤ r.vstart := by
    intro m hm
    rw [buildIndex, foldl_addRecord_linear] at hm
    simp only [emptyRefIndex] at hm
    obtain ⟨hmin, hmem, _⟩ := foldl_minAcc_spec _ _ _ hm
    by_cases hov : overlapsTile (a >>> 14) r
    · exact hmin r.vstart
        (List.mem_map.mpr ⟨r, List.mem_filter.mpr ⟨hr, by simpa using hov⟩, rfl⟩)
    · have hta : (a >>> 14) * 2 ^ 14 < r.stop := Nat.lt_of_le_of_lt (tile_le a) hint2.2
      have hrstart : (a >>> 14 + 1) * 2 ^ 14 ≤ r.start := by
        simp only [overlapsTile, Bool.and_eq_true, decide_eq_true_eq] at hov
        omega
      rcases hmem with hmem | hmem
      · exact absurd hmem (by simp)
      · obtain ⟨r2, hr2mem, hr2v⟩ := List.mem_map.mp hmem
        obtain ⟨hr2l, hr2ov⟩ := List.mem_filter.mp hr2mem
        have hr2start : r2.start < (a >>> 14 + 1) * 2 ^ 14 := by
          simp only [overlapsTile, Bool.and_eq_true, decide_eq_true_eq] at hr2ov
          exact hr2ov.1
        have hlt : r2.start < r.start := Nat.lt_of_lt_of_le hr2start hrstart
        have hS :
            records.Pairwise (fun r1 r2 =>
              (r1.start < r2.start → r1.vstart ≤ r2.vstart) ∧
                (r2.start < r1.start → r2.vstart ≤ r1.vstart)) :=
          hpair.imp (fun h =>
            ⟨fun _ => h.2, fun hc => absurd hc (Nat.not_lt.mpr h.1)⟩)
        have hall :=
          List.Pairwise.forall_of_forall
            (fun x y hxy => ⟨hxy.2, hxy.1⟩)
            (fun x _ =>
              ⟨fun hc => absurd hc (Nat.lt_irrefl _),
                fun hc => absurd hc (Nat.lt_irrefl _)⟩)
            hS
        have hv := (hall hr2l hr).1 hlt
        omega
  have hvr : r.vstart < r.vend := hwf r hr
  unfold RefIndex.query
  cases hlin : (buildIndex records).linear (a >>> 14) with
  | none =>
    apply covers_mergeChunks _ _ (sorted_sortChunks _)
    exact ⟨toChunk r, (mem_sortChunks _ _).mpr hcol, Nat.le_refl _, hvr⟩
  | some m =>
    apply covers_mergeChunks _ _ (sorted_sortChunks _)
    refine ⟨toChunk r, (mem_sortChunks _ _).mpr ?_, Nat.le_refl _, hvr⟩
    refine List.mem_filter.mpr ⟨hcol, ?_⟩
    have hle := hfloor m hlin
    simp only [toChunk, decide_eq_true_eq]
    omega

/-- C4: for every coordinate-sorted record sequence (starts non-decreasing,
records occupying increasing, nonempty virtual-position spans) and every query
region `[a, b)`, scanning the chunk set returned by the region query and then
filtering by intersection yields exactly the records whose interval
`[start, stop)` intersects `[a, b)` — no false negatives, and no false
positives in the final filtered output. -/
theorem query_records_exact (records : List RecordEntry) (a b : Nat)
    (hpair : records.Pairwise (fun r1 r2 => r1.start ≤ r2.start ∧ r1.vstart ≤ r2.vstart))
    (hwf : ∀ s ∈ records, s.vstart < s.vend) :
    queryRecords records a b = records.filter (fun r => intersects r a b) := by
  unfold queryRecords scanChunks
  rw [List.filter_filter]
  apply List.filter_congr
  intro r hr
  by_cases hint : intersects r a b = true
  · rw [hint, Bool.true_and]
    obtain ⟨c, hc, hc1, hc2⟩ := record_covered_by_query records r a b hpair hwf hr hint
    exact List.any_eq_true.mpr ⟨c, hc, by simp [hc1, hc2]⟩
  · simp only [Bool.not_eq_true] at hint
    simp [hint]

/-- Witness for C4: three sorted records at `[100, 200)`, `[150, 250)`,
`[500, 600)` and the query `[120, 180)` — the filtered scan is exactly the
two intersecting records. -/
theorem query_records_exact_witness :
    ([(⟨100, 200, 0, 10⟩ : RecordEntry), ⟨150, 250, 10, 20⟩, ⟨500, 600, 20, 30⟩].Pairwise
        (fun r1 r2 => r1.start ≤ r2.start ∧ r1.vstart ≤ r2.vstart)) ∧
    (∀ s ∈ [(⟨100, 200, 0, 10⟩ : RecordEntry), ⟨150, 250, 10, 20⟩, ⟨500, 600, 20, 30⟩],
      s.vstart < s.vend) ∧
    queryRecords [⟨100, 200, 0, 10⟩, ⟨150, 250, 10, 20⟩, ⟨500, 600, 20, 30⟩] 120 180 =
      ([(⟨100, 200, 0, 10⟩ : RecordEntry), ⟨150, 250, 10, 20⟩,
          ⟨500, 600, 20, 30⟩]).filter (fun r => intersects r 120 180) :=
  ⟨by decide, by decide,
    query_records_exact [⟨100, 200, 0, 10⟩, ⟨150, 250, 10, 20⟩, ⟨500, 600, 20, 30⟩] 120 180
      (by decide) (by decide)⟩

/-- C5: a query whose reference id is beyond the declared reference sequence
count returns an empty chunk list; the engine's result type has no error
channel, so no error is (or can be) returned. -/
theorem query_out_of_range_ref_empty (idx : BinningIndex) (refId a b : Nat)
    (h : idx.refs.length ≤ refId) : idx.query refId a b = [] := by
  unfold BinningIndex.query
  rw [List.get?_len_le h]

/-- Witness for C5: a one-reference index queried at reference id 1. -/
theorem query_out_of_range_ref_empty_witness :
    BinningIndex.query ⟨[emptyRefIndex]⟩ 1 0 100 = [] :=
  query_out_of_range_ref_empty ⟨[emptyRefIndex]⟩ 1 0 100 (by decide)

end Spec2Proof
